import Mathlib

/-!
Verification of the streaming tool-call orchestration engine of the
`python-mcp-client` repository, as a shallow embedding in Lean 4.

The embedded code is the fragment-assembly / dedup / dispatch / turn-building
logic of `MCPClient._process_messages_stream`, the non-streaming
`MCPClient._process_messages` / `process_query` paths (src/mcp_client.py),
and the corresponding streaming path of `HTTPMCPClient` (src/mcp_http_client.py).

External effects (the OpenAI completion calls, `json.loads`, the MCP tool
session) are modelled as oracle parameters; Python's truthiness tests on
optional strings are modelled explicitly.
-/

set_option maxHeartbeats 1000000

namespace MCP

/-- An assembled tool call record, mirroring the dict
`{"id": ..., "type": "function", "function": {"name": ..., "arguments": ...}}`
built by `_process_messages_stream` (the constant `"type"` field is omitted). -/
structure ToolCall where
  id : String
  name : String
  args : String
  deriving Repr, DecidableEq

/-- One streamed tool-call fragment (`chunk.choices[0].delta.tool_calls[j]`):
an optional index, an optional id, and optional partial name / arguments
(`tool_call.function.name` / `.arguments`; a missing `function` object gives
`none` for both). -/
structure ToolFragment where
  index : Option Nat
  fid : Option String
  fname : Option String
  fargs : Option String
  deriving Repr, DecidableEq

/-- Python truthiness of an optional string: `None` and `""` are falsy. -/
def strTruthy : Option String → Bool
  | none => false
  | some s => !(s == "")

/-- Python `x or ""` for an optional string. -/
def orEmpty (o : Option String) : String := o.getD ""

/-- The synthesized id `f"call_{len(tool_calls)}_{int(time.time() * 1000)}"`
used when a streamed fragment starts a new call without an explicit id. -/
def synthId (count : Nat) (ts : Nat) : String :=
  "call_" ++ Nat.repr count ++ "_" ++ Nat.repr ts

/-- Assembler state of the fragment loop: the finalized `tool_calls` list,
`current_tool_call` and `current_tool_index`. -/
structure AsmState where
  toolCalls : List ToolCall
  current : Option ToolCall
  currentIndex : Option Nat
  deriving Repr, DecidableEq

def AsmState.init : AsmState := ⟨[], none, none⟩

/-- The final push `if current_tool_call: tool_calls.append(current_tool_call)`
(a built call dict is always truthy). -/
def pushCurrent (st : AsmState) : List ToolCall :=
  match st.current with
  | some c => st.toolCalls ++ [c]
  | none => st.toolCalls

/-- The new-call condition of `mcp_client.py`:
`current_tool_call is None or (idx is not None and current_tool_index is None)
or (idx is not None and idx != current_tool_index)`. -/
def newCallCond (st : AsmState) (idx : Option Nat) : Bool :=
  st.current.isNone || (idx.isSome && st.currentIndex.isNone) ||
    (idx.isSome && idx != st.currentIndex)

/-- One iteration of the fragment loop of `_process_messages_stream`
(src/mcp_client.py lines 391-416); `ts` is the value of
`int(time.time() * 1000)` observed while this fragment is processed. -/
def stepFragment (ts : Nat) (st : AsmState) (f : ToolFragment) : AsmState :=
  if newCallCond st f.index then
    let tcs := pushCurrent st
    let newId := if strTruthy f.fid then orEmpty f.fid else synthId tcs.length ts
    { toolCalls := tcs
      current := some { id := newId, name := orEmpty f.fname, args := orEmpty f.fargs }
      currentIndex := f.index }
  else
    { st with
      current := st.current.map (fun c =>
        { c with
          name := if strTruthy f.fname then orEmpty f.fname else c.name
          args := if strTruthy f.fargs then c.args ++ orEmpty f.fargs else c.args }) }

/-- Run the fragment loop over a fragment list; `tsOf k` is the wall-clock
reading while the `k`-th fragment (counting from `k0`) is processed. -/
def runFragmentsFrom (tsOf : Nat → Nat) (k0 : Nat) (st : AsmState) :
    List ToolFragment → AsmState
  | [] => st
  | f :: fs => runFragmentsFrom tsOf (k0 + 1) (stepFragment (tsOf k0) st f) fs

def runFragments (tsOf : Nat → Nat) (frags : List ToolFragment) : AsmState :=
  runFragmentsFrom tsOf 0 AsmState.init frags

/-- The in-place merge of a duplicated id
(`unique[tc_id]["function"]["arguments"] += ...` and the
first-non-empty-name rule). -/
def mergeToolCall (u tc : ToolCall) : ToolCall :=
  { u with
    args := u.args ++ tc.args
    name := if u.name == "" && !(tc.name == "") then tc.name else u.name }

/-- One step of the dedup-by-id pass: the insertion-ordered dict `unique`
is modelled as a list with pairwise-distinct ids; an absent id is appended,
a present id is merged in place. -/
def dedupStep (acc : List ToolCall) (tc : ToolCall) : List ToolCall :=
  if acc.any (fun u => u.id == tc.id) then
    acc.map (fun u => if u.id == tc.id then mergeToolCall u tc else u)
  else
    acc ++ [tc]

/-- The final dedup pass over `tool_calls` keyed by id
(src/mcp_client.py lines 422-435); it runs only when `tool_calls` is
non-empty, and is the identity on the empty list either way. -/
def dedupById (tcs : List ToolCall) : List ToolCall :=
  tcs.foldl dedupStep []

/-- The complete assembler of `_process_messages_stream`: fragment loop,
final push of `current_tool_call`, then the dedup-by-id pass. -/
def assembleCalls (tsOf : Nat → Nat) (frags : List ToolFragment) : List ToolCall :=
  dedupById (pushCurrent (runFragments tsOf frags))

/-- A tool result dict `{"role": "tool", "tool_call_id": ..., "content": ...}`. -/
structure ToolResult where
  callId : String
  content : String
  deriving Repr, DecidableEq

/-- One conversation turn. `assistant` is a plain assistant message (no
`tool_calls` key or `None`); `assistantCalls` is an assistant message carrying
a `tool_calls` list; `tool` carries a `tool_call_id`. -/
inductive Turn where
  | system (content : String)
  | user (content : String)
  | assistant (content : Option String)
  | assistantCalls (content : Option String) (toolCalls : List ToolCall)
  | tool (callId : String) (content : String)
  deriving Repr, DecidableEq

section Dispatch

variable {Payload : Type}

/-- Python whitespace, as stripped by `str.strip()` with no arguments
(CPython's `Py_UNICODE_ISSPACE`): TAB..CR (U+0009-U+000D), the
FS/GS/RS/US separators (U+001C-U+001F), SPACE (U+0020), NEL (U+0085),
NBSP (U+00A0), OGHAM SPACE MARK (U+1680), the U+2000-U+200A spaces,
LINE SEPARATOR (U+2028), PARAGRAPH SEPARATOR (U+2029), NARROW NBSP
(U+202F), MEDIUM MATHEMATICAL SPACE (U+205F) and IDEOGRAPHIC SPACE
(U+3000). -/
def pyWS (c : Char) : Bool :=
  (0x09 ≤ c.toNat && c.toNat ≤ 0x0d) ||
  (0x1c ≤ c.toNat && c.toNat ≤ 0x1f) ||
  c.toNat == 0x20 || c.toNat == 0x85 || c.toNat == 0xa0 || c.toNat == 0x1680 ||
  (0x2000 ≤ c.toNat && c.toNat ≤ 0x200a) ||
  c.toNat == 0x2028 || c.toNat == 0x2029 || c.toNat == 0x202f ||
  c.toNat == 0x205f || c.toNat == 0x3000

/-- Python `s.strip()`: remove leading and trailing Python whitespace. -/
def stripWS (s : String) : String :=
  (((s.data.dropWhile pyWS).reverse.dropWhile pyWS).reverse).asString

/-- The guarded argument parse of the streaming dispatcher:
`if not tool_args_str or tool_args_str.strip() == "": tool_args = {}
else: tool_args = json.loads(tool_args_str)`. `parse` is the `json.loads`
oracle (an `error` is a raised `JSONDecodeError`), `ep` the empty payload. -/
def parsedArgs (parse : String → Except String Payload) (ep : Payload)
    (args : String) : Except String Payload :=
  if args == "" || stripWS args == "" then Except.ok ep else parse args

/-- Extraction of tool-result text:
`result.content[0].text if result.content else "No content returned"`. -/
def contentText (contents : List String) : String :=
  (contents.head?).getD "No content returned"

/-- One iteration of the tool-execution loop of
`MCPClient._process_messages_stream` (src/mcp_client.py lines 443-477).
`callTool` is the `session.call_tool` oracle (an `error` is a raised
exception; an `ok` carries the result's content list). Returns the produced
tool result (if any) together with the list of actual tool invocations
performed, as (name, payload) pairs. -/
def dispatchOne (parse : String → Except String Payload) (ep : Payload)
    (callTool : String → Payload → Except String (List String))
    (tc : ToolCall) : Option ToolResult × List (String × Payload) :=
  if tc.name == "" then (none, [])
  else
    match parsedArgs parse ep tc.args with
    | Except.error e =>
        (some ⟨tc.id, "Error parsing tool arguments for " ++ tc.name ++ ": " ++ e⟩, [])
    | Except.ok p =>
        match callTool tc.name p with
        | Except.ok contents => (some ⟨tc.id, contentText contents⟩, [(tc.name, p)])
        | Except.error e =>
            (some ⟨tc.id, "Error executing tool " ++ tc.name ++ ": " ++ e⟩, [(tc.name, p)])

/-- The whole tool-execution loop: every assembled call is processed in
order; results and invocations accumulate in order. -/
def dispatchAll (parse : String → Except String Payload) (ep : Payload)
    (callTool : String → Payload → Except String (List String))
    (tcs : List ToolCall) : List ToolResult × List (String × Payload) :=
  ((tcs.map (dispatchOne parse ep callTool)).filterMap Prod.fst,
   ((tcs.map (dispatchOne parse ep callTool)).map Prod.snd).flatten)

/-- The `formatted_tool_calls` list (src/mcp_client.py lines 483-495): drop calls with
an empty name, default empty arguments to `"\x7b\x7d"`. -/
def formatToolCalls (tcs : List ToolCall) : List ToolCall :=
  tcs.filterMap (fun tc =>
    if tc.name == "" then none
    else some { tc with args := if tc.args == "" then "\x7b\x7d" else tc.args })

/-- The message suffix `MCPClient._process_messages_stream` appends to the
original messages before the second completion call (src/mcp_client.py lines
500-511): the assistant turn with the formatted calls, then exactly the tool
results whose id occurs in `valid_ids`. -/
def buildFinalSuffix (parse : String → Except String Payload) (ep : Payload)
    (callTool : String → Payload → Except String (List String))
    (tcs : List ToolCall) : List Turn :=
  let results := (dispatchAll parse ep callTool tcs).1
  let formatted := formatToolCalls tcs
  let validIds := formatted.map (fun tc => tc.id)
  Turn.assistantCalls (some "") formatted ::
    (results.filter (fun r => validIds.contains r.callId)).map
      (fun r => Turn.tool r.callId r.content)

/-- One iteration of the tool-execution loop of
`HTTPMCPClient._process_messages_stream` (src/mcp_http_client.py lines
300-325): same skip and empty-arguments guard, but a single generic handler
(`except Exception`) also covers `json.loads` failures, and `call_tool`
returns the content string directly. -/
def dispatchOneHTTP (parse : String → Except String Payload) (ep : Payload)
    (callTool : String → Payload → Except String String)
    (tc : ToolCall) : Option ToolResult × List (String × Payload) :=
  if tc.name == "" then (none, [])
  else
    match parsedArgs parse ep tc.args with
    | Except.error e =>
        (some ⟨tc.id, "Error executing tool " ++ tc.name ++ ": " ++ e⟩, [])
    | Except.ok p =>
        match callTool tc.name p with
        | Except.ok content => (some ⟨tc.id, content⟩, [(tc.name, p)])
        | Except.error e =>
            (some ⟨tc.id, "Error executing tool " ++ tc.name ++ ": " ++ e⟩, [(tc.name, p)])

def dispatchAllHTTP (parse : String → Except String Payload) (ep : Payload)
    (callTool : String → Payload → Except String String)
    (tcs : List ToolCall) : List ToolResult × List (String × Payload) :=
  ((tcs.map (dispatchOneHTTP parse ep callTool)).filterMap Prod.fst,
   ((tcs.map (dispatchOneHTTP parse ep callTool)).map Prod.snd).flatten)

/-- The message suffix built by `HTTPMCPClient._process_messages_stream`
(src/mcp_http_client.py lines 327-334): the assistant turn carries the raw
assembled `tool_calls` list, and all tool results are appended unfiltered. -/
def buildFinalSuffixHTTP (parse : String → Except String Payload) (ep : Payload)
    (callTool : String → Payload → Except String String)
    (tcs : List ToolCall) : List Turn :=
  Turn.assistantCalls (some "") tcs ::
    ((dispatchAllHTTP parse ep callTool tcs).1).map
      (fun r => Turn.tool r.callId r.content)

/-- One streamed completion event: the optional text delta
`chunk.choices[0].delta.content` and the (possibly empty) list of tool-call
fragments `chunk.choices[0].delta.tool_calls` (`None` is the empty list). -/
structure StreamEvent where
  content : Option String
  toolFrags : List ToolFragment
  deriving Repr, DecidableEq

/-- The text chunks yielded by one streamed completion pass
(`if chunk.choices[0].delta.content: ... yield content`). -/
def phaseTexts (evs : List StreamEvent) : List String :=
  evs.filterMap (fun e => if strTruthy e.content then some (orEmpty e.content) else none)

/-- All tool-call fragments of one streamed completion pass, in arrival
order (the fragment loop's input). -/
def phaseFragments (evs : List StreamEvent) : List ToolFragment :=
  (evs.map (fun e => e.toolFrags)).flatten

/-- The whole streaming cycle of `MCPClient._process_messages_stream`:
first-phase events `evs` are decoded into text chunks (yielded immediately)
and assembled tool calls; with no assembled calls the generator ends there
and no second completion is issued; otherwise the marker chunk is yielded,
tools are dispatched, the final message suffix is built, the second
completion (whose streamed events are the oracle `secondEvs`) is issued and
its text deltas are forwarded. Returns (yielded chunks, whether a second
completion request was issued, the built message suffix). -/
def processMessagesStream (tsOf : Nat → Nat)
    (parse : String → Except String Payload) (ep : Payload)
    (callTool : String → Payload → Except String (List String))
    (evs : List StreamEvent) (secondEvs : List StreamEvent) :
    List String × Bool × List Turn :=
  let texts := phaseTexts evs
  let tcs := assembleCalls tsOf (phaseFragments evs)
  if tcs.isEmpty then (texts, false, [])
  else
    (texts ++ ["\n\n*Processing tool calls...*\n"] ++ phaseTexts secondEvs,
     true,
     buildFinalSuffix parse ep callTool tcs)

/-- The `response_message` of a non-streaming completion: its `content` and
its (complete) `tool_calls` list (`None` is the empty list; Python's
`if response_message.tool_calls:` is emptiness). -/
structure ChatMessage where
  content : Option String
  toolCalls : List ToolCall
  deriving Repr, DecidableEq

/-- The tool-execution loop of the non-streaming
`MCPClient._process_messages` (src/mcp_client.py lines 276-297). There is no
per-call exception handler here: a `json.loads` failure or a `call_tool`
failure propagates out of the loop. `ts` is the `int(time.time() * 1000)`
reading for a missing id. Threads the conversation history (appended to only
when `updateHistory`) and accumulates the appended tool-result turns. -/
def toolLoopNS (parse : String → Except String Payload)
    (callTool : String → Payload → Except String (List String)) (ts : Nat)
    (updateHistory : Bool) (hist : List Turn) (acc : List Turn) :
    List ToolCall → Except String (List Turn × List Turn)
  | [] => Except.ok (hist, acc)
  | tc :: rest =>
    if tc.name == "" then
      toolLoopNS parse callTool ts updateHistory hist acc rest
    else
      match parse tc.args with
      | Except.error e => Except.error e
      | Except.ok p =>
        match callTool tc.name p with
        | Except.error e => Except.error e
        | Except.ok contents =>
          let cid := if !(tc.id == "") then tc.id else "call_" ++ Nat.repr ts
          let tr := Turn.tool cid (contentText contents)
          let hist1 := if updateHistory then hist ++ [tr] else hist
          toolLoopNS parse callTool ts updateHistory hist1 (acc ++ [tr]) rest

/-- Inner body of `MCPClient._process_messages` (the part inside the `try`).
`firstResp` / `secondResp` are the two completion-call oracles (an `error` is
a raised exception, e.g. a transport error or timeout). The result carries
the returned content, the updated conversation history and whether the second
completion call was issued; an error also records whether the second call had
been issued when it was raised. -/
def processMessagesCore (parse : String → Except String Payload)
    (callTool : String → Payload → Except String (List String)) (ts : Nat)
    (firstResp : Except String ChatMessage)
    (secondResp : Except String (Option String))
    (hist : List Turn) (updateHistory : Bool) :
    Except (String × Bool) (Option String × List Turn × Bool) :=
  match firstResp with
  | Except.error e => Except.error (e, false)
  | Except.ok rm =>
    if rm.toolCalls.isEmpty then
      let hist1 := if updateHistory then hist ++ [Turn.assistant rm.content] else hist
      Except.ok (rm.content, hist1, false)
    else
      let hist1 :=
        if updateHistory then hist ++ [Turn.assistantCalls rm.content rm.toolCalls]
        else hist
      match toolLoopNS parse callTool ts updateHistory hist1 [] rm.toolCalls with
      | Except.error e => Except.error (e, false)
      | Except.ok (hist2, _toolTurns) =>
        match secondResp with
        | Except.error e => Except.error (e, true)
        | Except.ok content =>
          let hist3 := if updateHistory then hist2 ++ [Turn.assistant content] else hist2
          Except.ok (content, hist3, true)

/-- Model of `MCPClient._process_messages` with the outer `except Exception` handler
(src/mcp_client.py lines 334-340): on any raised exception the method returns
`"Error processing query: ..."` and, when `update_history` is set, resets the
conversation history to the empty list. -/
def processMessagesNS (parse : String → Except String Payload)
    (callTool : String → Payload → Except String (List String)) (ts : Nat)
    (firstResp : Except String ChatMessage)
    (secondResp : Except String (Option String))
    (hist : List Turn) (updateHistory : Bool) :
    Option String × List Turn × Bool :=
  match processMessagesCore parse callTool ts firstResp secondResp hist updateHistory with
  | Except.ok r => r
  | Except.error (e, issued) =>
      (some ("Error processing query: " ++ e),
       (if updateHistory then [] else hist), issued)

/-- Model of `MCPClient.process_query` (src/mcp_client.py lines 139-168): the user
message is appended to `conversation_history` up front, then
`_process_messages(..., update_history=True)` runs. -/
def processQuery (parse : String → Except String Payload)
    (callTool : String → Payload → Except String (List String)) (ts : Nat)
    (firstResp : Except String ChatMessage)
    (secondResp : Except String (Option String))
    (hist : List Turn) (query : String) :
    Option String × List Turn × Bool :=
  processMessagesNS parse callTool ts firstResp secondResp
    (hist ++ [Turn.user query]) true

/-- Model of `MCPClient.process_query_with_context` (lines 170-187):
the caller-supplied context is sent, and `_process_messages` runs with
`update_history=False`; `hist` is the client's `conversation_history`
field, which this path never writes. -/
def processQueryWithContext (parse : String → Except String Payload)
    (callTool : String → Payload → Except String (List String)) (ts : Nat)
    (firstResp : Except String ChatMessage)
    (secondResp : Except String (Option String))
    (hist : List Turn) :
    Option String × List Turn × Bool :=
  processMessagesNS parse callTool ts firstResp secondResp hist false

/-- Model of `MCPClient.process_query_with_context_stream` (src/mcp_client.py lines
189-208) together with the consumption of `_process_messages_stream`:
the body never reads or writes `conversation_history`, so the client state
`hist` is returned unchanged alongside the streamed output. -/
def processQueryWithContextStream (tsOf : Nat → Nat)
    (parse : String → Except String Payload) (ep : Payload)
    (callTool : String → Payload → Except String (List String))
    (evs : List StreamEvent) (secondEvs : List StreamEvent)
    (hist : List Turn) :
    (List String × Bool × List Turn) × List Turn :=
  (processMessagesStream tsOf parse ep callTool evs secondEvs, hist)

end Dispatch

/-! ### Specification-side characterizations

These definitions follow the spec's words (properties §8 and §4.2) and are
compared against the source-derived definitions above. -/

/-- From the spec: "the assembled intent's `arguments` equals the ordered
concatenation of all partial-argument fragments" (non-empty ones). -/
def specArgsConcat (frags : List ToolFragment) : String :=
  (frags.filter (fun f => strTruthy f.fargs)).foldl (fun a f => a ++ orEmpty f.fargs) ""

/-- From the spec: "`name` equals the last non-empty name fragment seen"
(the empty string when no fragment carries a non-empty name). -/
def specLastName (frags : List ToolFragment) : String :=
  match (frags.filter (fun f => strTruthy f.fname)).getLast? with
  | some f => orEmpty f.fname
  | none => ""

/-- Keep the first occurrence of every element, dropping later repeats
(insertion order of the keys of a Python dict). -/
def firstDedupAux (seen : List String) : List String → List String
  | [] => []
  | x :: xs =>
    if seen.contains x then firstDedupAux seen xs
    else x :: firstDedupAux (x :: seen) xs

def firstDedup (l : List String) : List String := firstDedupAux [] l

/-- From the spec: "the first non-empty name wins" within one id group. -/
def specGroupName (grp : List ToolCall) : String :=
  grp.foldl (fun n tc => if n == "" then tc.name else n) ""

/-- From the spec: "their argument strings are concatenated in arrival
order" within one id group. -/
def specGroupArgs (grp : List ToolCall) : String :=
  grp.foldl (fun a tc => a ++ tc.args) ""

def specMergeGroup (i : String) (grp : List ToolCall) : ToolCall :=
  ⟨i, specGroupName grp, specGroupArgs grp⟩

/-- From the spec (§4.2): the deduplication pass merges intents sharing an
id; the output stays in first-appearance order, one intent per distinct id,
with concatenated arguments and the first non-empty name per group. -/
def dedupSpec (tcs : List ToolCall) : List ToolCall :=
  (firstDedup (tcs.map (fun tc => tc.id))).map
    (fun i => specMergeGroup i (tcs.filter (fun tc => tc.id == i)))

/-! ### Decimal digits of `Nat.repr`, for the synthesized call ids -/

/-- Decimal value of a digit-character list, continuing from `a`. -/
def digitsValFrom (a : Nat) (l : List Char) : Nat :=
  l.foldl (fun x c => 10 * x + (c.toNat - 48)) a

theorem digitChar_toNat {m : Nat} (h : m < 10) : (Nat.digitChar m).toNat = 48 + m := by
  interval_cases m <;> decide

theorem digitChar_ne_underscore {m : Nat} (h : m < 10) : Nat.digitChar m ≠ '_' := by
  interval_cases m <;> decide

theorem toDigitsCore_shift (b : Nat) :
    ∀ (fuel n : Nat) (ds : List Char),
      Nat.toDigitsCore b fuel n ds = Nat.toDigitsCore b fuel n [] ++ ds := by
  intro fuel
  induction fuel with
  | zero => intro n ds; simp [Nat.toDigitsCore]
  | succ fuel ih =>
    intro n ds
    simp only [Nat.toDigitsCore]
    by_cases h : n / b = 0
    · simp [h]
    · rw [if_neg h, if_neg h, ih (n / b) (Nat.digitChar (n % b) :: ds),
        ih (n / b) [Nat.digitChar (n % b)], List.append_assoc]
      rfl

theorem toDigitsCore_fuel (n : Nat) :
    ∀ fuel fuel', n < fuel → n < fuel' →
      Nat.toDigitsCore 10 fuel n [] = Nat.toDigitsCore 10 fuel' n [] := by
  induction n using Nat.strong_induction_on with
  | _ n ih =>
    intro fuel fuel' h h'
    match fuel, fuel', h, h' with
    | g + 1, g' + 1, h, h' =>
      simp only [Nat.toDigitsCore]
      by_cases h0 : n / 10 = 0
      · simp [h0]
      · rw [if_neg h0, if_neg h0, toDigitsCore_shift 10 g, toDigitsCore_shift 10 g']
        have hn : 0 < n := by omega
        have hdiv : n / 10 < n := Nat.div_lt_self hn (by omega)
        rw [ih (n / 10) hdiv g g' (by omega) (by omega)]

/-- The decimal digit characters of `n`, as produced by `Nat.repr`. -/
def natChars (n : Nat) : List Char := Nat.toDigits 10 n

theorem natChars_unfold (n : Nat) :
    natChars n = if n < 10 then [Nat.digitChar n]
      else natChars (n / 10) ++ [Nat.digitChar (n % 10)] := by
  unfold natChars Nat.toDigits
  simp only [Nat.toDigitsCore]
  by_cases h : n / 10 = 0
  · have hlt : n < 10 := by omega
    have hmod : n % 10 = n := Nat.mod_eq_of_lt hlt
    simp [h, hlt, hmod]
  · have hge : ¬ n < 10 := by omega
    have hn : 0 < n := by omega
    have hdiv : n / 10 < n := Nat.div_lt_self hn (by omega)
    rw [if_neg h, if_neg hge, toDigitsCore_shift]
    rw [toDigitsCore_fuel (n / 10) n (n / 10 + 1) (by omega) (by omega)]
    congr 1

theorem digitsValFrom_append (a : Nat) (l : List Char) (c : Char) :
    digitsValFrom a (l ++ [c]) = 10 * digitsValFrom a l + (c.toNat - 48) := by
  unfold digitsValFrom
  rw [List.foldl_append]
  rfl

theorem natChars_val (n : Nat) : digitsValFrom 0 (natChars n) = n := by
  induction n using Nat.strong_induction_on with
  | _ n ih =>
    rw [natChars_unfold]
    by_cases h : n < 10
    · simp only [if_pos h]
      simp [digitsValFrom, digitChar_toNat h]
    · have hn : 0 < n := by omega
      have hdiv : n / 10 < n := Nat.div_lt_self hn (by omega)
      rw [if_neg h, digitsValFrom_append, ih (n / 10) hdiv,
        digitChar_toNat (show n % 10 < 10 by omega)]
      omega

theorem natChars_ne_underscore (n : Nat) : ∀ c ∈ natChars n, c ≠ '_' := by
  induction n using Nat.strong_induction_on with
  | _ n ih =>
    rw [natChars_unfold]
    by_cases h : n < 10
    · simp only [if_pos h, List.mem_singleton]
      intro c hc
      subst hc
      exact digitChar_ne_underscore h
    · have hn : 0 < n := by omega
      have hdiv : n / 10 < n := Nat.div_lt_self hn (by omega)
      rw [if_neg h]
      intro c hc
      rcases List.mem_append.mp hc with h1 | h2
      · exact ih (n / 10) hdiv c h1
      · rw [List.mem_singleton] at h2
        subst h2
        exact digitChar_ne_underscore (show n % 10 < 10 by omega)

theorem repr_data (n : Nat) : (Nat.repr n).data = natChars n := rfl

theorem natRepr_inj {m n : Nat} (h : Nat.repr m = Nat.repr n) : m = n := by
  have hd : natChars m = natChars n := by
    rw [← repr_data, ← repr_data, h]
  have hv := congrArg (digitsValFrom 0) hd
  rwa [natChars_val, natChars_val] at hv

theorem split_at_underscore :
    ∀ (d1 d2 r1 r2 : List Char),
      (∀ c ∈ d1, c ≠ '_') → (∀ c ∈ d2, c ≠ '_') →
      d1 ++ '_' :: r1 = d2 ++ '_' :: r2 → d1 = d2 := by
  intro d1
  induction d1 with
  | nil =>
    intro d2 r1 r2 _ h2 h
    cases d2 with
    | nil => rfl
    | cons c d2 =>
      simp only [List.nil_append, List.cons_append, List.cons.injEq] at h
      exact absurd h.1.symm (h2 c (by simp))
  | cons c1 d1 ih =>
    intro d2 r1 r2 h1 h2 h
    cases d2 with
    | nil =>
      simp only [List.nil_append, List.cons_append, List.cons.injEq] at h
      exact absurd h.1 (h1 c1 (by simp))
    | cons c2 d2 =>
      simp only [List.cons_append, List.cons.injEq] at h
      have hrest := ih d2 r1 r2 (fun c hc => h1 c (by simp [hc]))
        (fun c hc => h2 c (by simp [hc])) h.2
      rw [h.1, hrest]

theorem synthId_inj_count {k k' u u' : Nat} (h : synthId k u = synthId k' u') :
    k = k' := by
  have hd := congrArg String.data h
  simp only [synthId, String.data_append] at hd
  have hd' : (Nat.repr k).data ++ '_' :: (Nat.repr u).data =
      (Nat.repr k').data ++ '_' :: (Nat.repr u').data := by
    simpa using hd
  have hk : (Nat.repr k).data = (Nat.repr k').data := by
    refine split_at_underscore _ _ _ _ ?_ ?_ hd'
    · rw [repr_data]; exact natChars_ne_underscore k
    · rw [repr_data]; exact natChars_ne_underscore k'
  exact natRepr_inj (String.ext hk)

/-! ### The dedup pass equals its specification -/

def idsOf (tcs : List ToolCall) : List String := tcs.map (fun tc => tc.id)

theorem mem_firstDedupAux (a : String) :
    ∀ (l : List String) (seen : List String),
      a ∈ firstDedupAux seen l ↔ a ∈ l ∧ ¬ a ∈ seen := by
  intro l
  induction l with
  | nil => intro seen; simp [firstDedupAux]
  | cons x xs ih =>
    intro seen
    by_cases hx : x ∈ seen
    · unfold firstDedupAux
      rw [if_pos (by simp [hx]), ih seen]
      constructor
      · exact fun ⟨h1, h2⟩ => ⟨List.mem_cons_of_mem _ h1, h2⟩
      · rintro ⟨h1, h2⟩
        rcases List.mem_cons.mp h1 with h | h
        · subst h; exact absurd hx h2
        · exact ⟨h, h2⟩
    · unfold firstDedupAux
      rw [if_neg (by simp [hx]), List.mem_cons, ih (x :: seen)]
      constructor
      · rintro (h | ⟨h1, h2⟩)
        · subst h
          exact ⟨List.mem_cons_self _ _, hx⟩
        · exact ⟨List.mem_cons_of_mem _ h1, fun hc => h2 (List.mem_cons_of_mem _ hc)⟩
      · rintro ⟨h1, h2⟩
        by_cases hax : a = x
        · exact Or.inl hax
        · rcases List.mem_cons.mp h1 with h | h
          · exact absurd h hax
          · refine Or.inr ⟨h, fun hc => ?_⟩
            rcases List.mem_cons.mp hc with h' | h'
            · exact hax h'
            · exact h2 h'

theorem mem_firstDedup (a : String) (l : List String) :
    a ∈ firstDedup l ↔ a ∈ l := by
  unfold firstDedup
  rw [mem_firstDedupAux]
  simp

theorem firstDedupAux_append_singleton (a : String) :
    ∀ (l : List String) (seen : List String),
      firstDedupAux seen (l ++ [a]) =
        firstDedupAux seen l ++ (if a ∈ seen ∨ a ∈ l then [] else [a]) := by
  intro l
  induction l with
  | nil =>
    intro seen
    simp only [List.nil_append]
    by_cases h : a ∈ seen
    · simp [firstDedupAux, h]
    · simp [firstDedupAux, h]
  | cons x xs ih =>
    intro seen
    simp only [List.cons_append]
    unfold firstDedupAux
    by_cases hx : x ∈ seen
    · rw [if_pos (by simp [hx]), if_pos (by simp [hx]), ih seen]
      congr 1
      by_cases ha : a ∈ seen ∨ a ∈ xs
      · rw [if_pos ha, if_pos (by tauto)]
      · rw [if_neg ha, if_neg ?_]
        rintro (h | h)
        · exact ha (Or.inl h)
        · rcases List.mem_cons.mp h with h' | h'
          · subst h'; exact ha (Or.inl hx)
          · exact ha (Or.inr h')
    · rw [if_neg (by simp [hx]), if_neg (by simp [hx]), ih (x :: seen)]
      simp only [List.cons_append]
      congr 2
      by_cases ha : a ∈ x :: seen ∨ a ∈ xs
      · rw [if_pos ha, if_pos ?_]
        rcases ha with h | h
        · rcases List.mem_cons.mp h with h' | h'
          · subst h'; exact Or.inr (List.mem_cons_self _ _)
          · exact Or.inl h'
        · exact Or.inr (List.mem_cons_of_mem _ h)
      · rw [if_neg ha, if_neg ?_]
        rintro (h | h)
        · exact ha (Or.inl (List.mem_cons_of_mem _ h))
        · rcases List.mem_cons.mp h with h' | h'
          · exact ha (Or.inl (by simp [h']))
          · exact ha (Or.inr h')

theorem firstDedup_append_singleton (a : String) (l : List String) :
    firstDedup (l ++ [a]) =
      firstDedup l ++ (if a ∈ l then [] else [a]) := by
  unfold firstDedup
  rw [firstDedupAux_append_singleton]
  congr 1
  by_cases h : a ∈ l
  · rw [if_pos h, if_pos (by simp [h])]
  · rw [if_neg h, if_neg (by simp [h])]

theorem specGroupArgs_append (g : List ToolCall) (x : ToolCall) :
    specGroupArgs (g ++ [x]) = specGroupArgs g ++ x.args := by
  unfold specGroupArgs
  rw [List.foldl_append]
  rfl

theorem specGroupName_append (g : List ToolCall) (x : ToolCall) :
    specGroupName (g ++ [x]) =
      if specGroupName g == "" then x.name else specGroupName g := by
  unfold specGroupName
  rw [List.foldl_append]
  rfl

theorem mergeToolCall_spec (i : String) (g : List ToolCall) (x : ToolCall) :
    mergeToolCall (specMergeGroup i g) x = specMergeGroup i (g ++ [x]) := by
  unfold specMergeGroup mergeToolCall
  rw [specGroupName_append, specGroupArgs_append]
  by_cases h1 : specGroupName g == ""
  · by_cases h2 : x.name == ""
    · simp [h1, h2, eq_of_beq h1, eq_of_beq h2]
    · simp [h1, h2]
  · simp [h1]

theorem specMergeGroup_singleton (x : ToolCall) :
    specMergeGroup x.id [x] = x := by
  cases x
  simp [specMergeGroup, specGroupName, specGroupArgs]

theorem filter_id_eq_nil {i : String} {p : List ToolCall} (h : ¬ i ∈ idsOf p) :
    p.filter (fun tc => tc.id == i) = [] := by
  refine List.filter_eq_nil_iff.mpr ?_
  intro tc htc
  simp only [beq_iff_eq]
  intro he
  exact h (List.mem_map.mpr ⟨tc, htc, he⟩)

theorem dedupSpec_any_id (p : List ToolCall) (x : ToolCall) :
    (dedupSpec p).any (fun u => u.id == x.id) = true ↔ x.id ∈ idsOf p := by
  rw [List.any_eq_true]
  constructor
  · rintro ⟨u, hu, hid⟩
    rcases List.mem_map.mp hu with ⟨i, hi, rfl⟩
    have hix : i = x.id := by simpa [specMergeGroup] using hid
    subst hix
    exact (mem_firstDedup _ _).mp hi
  · intro h
    refine ⟨specMergeGroup x.id (p.filter (fun tc => tc.id == x.id)), ?_, by simp [specMergeGroup]⟩
    exact List.mem_map.mpr ⟨x.id, (mem_firstDedup _ _).mpr h, rfl⟩

theorem dedupStep_spec (p : List ToolCall) (x : ToolCall) :
    dedupStep (dedupSpec p) x = dedupSpec (p ++ [x]) := by
  have hids : idsOf (p ++ [x]) = idsOf p ++ [x.id] := by simp [idsOf]
  unfold dedupStep
  by_cases hmem : x.id ∈ idsOf p
  · rw [if_pos ((dedupSpec_any_id p x).mpr hmem)]
    show _ = (firstDedup (idsOf (p ++ [x]))).map _
    rw [hids, firstDedup_append_singleton, if_pos hmem, List.append_nil]
    show (List.map _ (firstDedup (idsOf p))).map _ = _
    rw [List.map_map]
    refine List.map_eq_map_iff.mpr ?_
    intro i hi
    simp only [Function.comp_apply]
    by_cases hix : i = x.id
    · subst hix
      rw [if_pos (by simp [specMergeGroup]), mergeToolCall_spec]
      rw [List.filter_append]
      congr 2
      simp
    · rw [if_neg (by simp [specMergeGroup, hix])]
      rw [List.filter_append]
      have : [x].filter (fun tc => tc.id == i) = [] := by
        simp [List.filter_cons, hix, Ne.symm hix]
      rw [this, List.append_nil]
  · have hany : ¬ ((dedupSpec p).any (fun u => u.id == x.id) = true) := by
      intro hc
      exact hmem ((dedupSpec_any_id p x).mp hc)
    rw [if_neg hany]
    show _ = (firstDedup (idsOf (p ++ [x]))).map _
    rw [hids, firstDedup_append_singleton, if_neg hmem, List.map_append]
    congr 1
    · refine List.map_eq_map_iff.mpr ?_
      intro i hi
      have hip : i ∈ idsOf p := (mem_firstDedup _ _).mp hi
      have hix : ¬ i = x.id := fun he => hmem (he ▸ hip)
      rw [List.filter_append]
      have : [x].filter (fun tc => tc.id == i) = [] := by
        simp [List.filter_cons, Ne.symm hix]
      rw [this, List.append_nil]
    · simp only [List.map_cons, List.map_nil]
      rw [List.filter_append, filter_id_eq_nil hmem, List.nil_append]
      have : [x].filter (fun tc => tc.id == x.id) = [x] := by simp
      rw [this, specMergeGroup_singleton]

theorem dedupById_eq_dedupSpec (tcs : List ToolCall) :
    dedupById tcs = dedupSpec tcs := by
  induction tcs using List.reverseRecOn with
  | nil => rfl
  | append_singleton l x ih =>
    show (l ++ [x]).foldl dedupStep [] = _
    rw [List.foldl_append]
    show dedupStep (dedupById l) x = _
    rw [ih, dedupStep_spec]

theorem dedupById_of_nodup {tcs : List ToolCall} (h : (idsOf tcs).Nodup) :
    dedupById tcs = tcs := by
  induction tcs using List.reverseRecOn with
  | nil => rfl
  | append_singleton l x ih =>
    have hids : idsOf (l ++ [x]) = idsOf l ++ [x.id] := by simp [idsOf]
    rw [hids] at h
    have h1 : (idsOf l).Nodup := (List.nodup_append.mp h).1
    have h2 : ¬ x.id ∈ idsOf l := by
      intro hc
      exact (List.nodup_append.mp h).2.2 hc (List.mem_singleton_self _)
    show (l ++ [x]).foldl dedupStep [] = _
    rw [List.foldl_append]
    show dedupStep (dedupById l) x = _
    rw [ih h1]
    unfold dedupStep
    have hany : ¬ (l.any (fun u => u.id == x.id) = true) := by
      intro hc
      rw [List.any_eq_true] at hc
      obtain ⟨u, hu, hid⟩ := hc
      exact h2 (List.mem_map.mpr ⟨u, hu, eq_of_beq hid⟩)
    rw [if_neg hany]

/-! ### The fragment loop on a constant index -/

/-- The continuation branch's name update, folded over a fragment list. -/
def nameUpd (n : String) (frags : List ToolFragment) : String :=
  frags.foldl (fun n f => if strTruthy f.fname then orEmpty f.fname else n) n

/-- The continuation branch's arguments update, folded over a fragment list. -/
def argsUpd (a : String) (frags : List ToolFragment) : String :=
  frags.foldl (fun a f => if strTruthy f.fargs then a ++ orEmpty f.fargs else a) a

theorem orEmpty_of_not_truthy {o : Option String} (h : strTruthy o = false) :
    orEmpty o = "" := by
  cases o with
  | none => rfl
  | some s =>
    have hs : (s == "") = true := by simpa [strTruthy] using h
    simp [orEmpty, eq_of_beq hs]

theorem nameUpd_spec (n0 : String) :
    ∀ frags : List ToolFragment,
      nameUpd n0 frags =
        (match (frags.filter (fun f => strTruthy f.fname)).getLast? with
          | some f => orEmpty f.fname
          | none => n0) := by
  intro frags
  induction frags using List.reverseRecOn with
  | nil => rfl
  | append_singleton l f ih =>
    by_cases hf : strTruthy f.fname
    · have h1 : nameUpd n0 (l ++ [f]) = orEmpty f.fname := by
        unfold nameUpd
        rw [List.foldl_append]
        simp only [List.foldl_cons, List.foldl_nil]
        rw [if_pos hf]
      have h2 : (l ++ [f]).filter (fun f => strTruthy f.fname) =
          l.filter (fun f => strTruthy f.fname) ++ [f] := by
        rw [List.filter_append]
        congr 1
        simp [List.filter_singleton, hf]
      rw [h1, h2, List.getLast?_concat]
    · have h1 : nameUpd n0 (l ++ [f]) = nameUpd n0 l := by
        unfold nameUpd
        rw [List.foldl_append]
        simp only [List.foldl_cons, List.foldl_nil]
        rw [if_neg hf]
      have h2 : (l ++ [f]).filter (fun f => strTruthy f.fname) =
          l.filter (fun f => strTruthy f.fname) := by
        rw [List.filter_append]
        simp [List.filter_singleton, hf]
      rw [h1, h2]
      exact ih

theorem argsUpd_spec (a0 : String) :
    ∀ frags : List ToolFragment, argsUpd a0 frags = a0 ++ specArgsConcat frags := by
  intro frags
  induction frags using List.reverseRecOn with
  | nil =>
    show a0 = a0 ++ ""
    rw [String.append_empty]
  | append_singleton l f ih =>
    by_cases hf : strTruthy f.fargs
    · have h1 : argsUpd a0 (l ++ [f]) = argsUpd a0 l ++ orEmpty f.fargs := by
        unfold argsUpd
        rw [List.foldl_append]
        simp only [List.foldl_cons, List.foldl_nil]
        rw [if_pos hf]
      have hs : [f].filter (fun f => strTruthy f.fargs) = [f] := by
        simp [List.filter_singleton, hf]
      have h2 : specArgsConcat (l ++ [f]) = specArgsConcat l ++ orEmpty f.fargs := by
        unfold specArgsConcat
        rw [List.filter_append, hs, List.foldl_append]
        simp only [List.foldl_cons, List.foldl_nil]
      rw [h1, h2, ih, String.append_assoc]
    · have h1 : argsUpd a0 (l ++ [f]) = argsUpd a0 l := by
        unfold argsUpd
        rw [List.foldl_append]
        simp only [List.foldl_cons, List.foldl_nil]
        rw [if_neg hf]
      have h2 : specArgsConcat (l ++ [f]) = specArgsConcat l := by
        unfold specArgsConcat
        rw [List.filter_append]
        simp [List.filter_singleton, hf]
      rw [h1, h2]
      exact ih

theorem run_same_index (tsOf : Nat → Nat) (i : Nat) :
    ∀ (frags : List ToolFragment) (k : Nat) (c : ToolCall),
      (∀ f ∈ frags, f.index = some i) →
      runFragmentsFrom tsOf k ⟨[], some c, some i⟩ frags =
        ⟨[], some ⟨c.id, nameUpd c.name frags, argsUpd c.args frags⟩, some i⟩ := by
  intro frags
  induction frags with
  | nil =>
    intro k c _
    simp [runFragmentsFrom, nameUpd, argsUpd]
  | cons f fs ih =>
    intro k c hall
    have hf : f.index = some i := hall f (by simp)
    show runFragmentsFrom tsOf (k + 1)
        (stepFragment (tsOf k) ⟨[], some c, some i⟩ f) fs = _
    have hcond : newCallCond ⟨[], some c, some i⟩ f.index = false := by
      simp [newCallCond, hf]
    have hstep : stepFragment (tsOf k) ⟨[], some c, some i⟩ f =
        ⟨[], some ⟨c.id,
          if strTruthy f.fname then orEmpty f.fname else c.name,
          if strTruthy f.fargs then c.args ++ orEmpty f.fargs else c.args⟩, some i⟩ := by
      unfold stepFragment
      rw [hcond]
      simp
    rw [hstep, ih (k + 1) _ (fun g hg => hall g (by simp [hg]))]
    simp [nameUpd, argsUpd]

theorem specLastName_cons (f0 : ToolFragment) (rest : List ToolFragment) :
    specLastName (f0 :: rest) = nameUpd (orEmpty f0.fname) rest := by
  rw [nameUpd_spec]
  unfold specLastName
  by_cases hf : strTruthy f0.fname
  · have hfil : (f0 :: rest).filter (fun f => strTruthy f.fname) =
        f0 :: rest.filter (fun f => strTruthy f.fname) := by
      simp [List.filter_cons, hf]
    rw [hfil]
    cases hfr : (rest.filter (fun f => strTruthy f.fname)).getLast? with
    | none => rw [List.getLast?_cons, hfr]; rfl
    | some g => rw [List.getLast?_cons, hfr]; rfl
  · have hfil : (f0 :: rest).filter (fun f => strTruthy f.fname) =
        rest.filter (fun f => strTruthy f.fname) := by
      simp [List.filter_cons, hf]
    rw [hfil]
    cases hfr : (rest.filter (fun f => strTruthy f.fname)).getLast? with
    | none =>
      simp only []
      rw [orEmpty_of_not_truthy (by simpa using hf)]
    | some g => rfl

theorem argsFold_hoist :
    ∀ (l : List ToolFragment) (a : String),
      l.foldl (fun a f => a ++ orEmpty f.fargs) a =
        a ++ l.foldl (fun a f => a ++ orEmpty f.fargs) "" := by
  intro l
  induction l with
  | nil =>
    intro a
    rw [List.foldl_nil, List.foldl_nil, String.append_empty]
  | cons f fs ih =>
    intro a
    rw [List.foldl_cons, List.foldl_cons, ih (a ++ orEmpty f.fargs),
      ih ("" ++ orEmpty f.fargs)]
    have he : ("" : String) ++ orEmpty f.fargs = orEmpty f.fargs := rfl
    rw [he, String.append_assoc]

theorem specArgsConcat_cons (f0 : ToolFragment) (rest : List ToolFragment) :
    specArgsConcat (f0 :: rest) = argsUpd (orEmpty f0.fargs) rest := by
  rw [argsUpd_spec]
  by_cases hf : strTruthy f0.fargs
  · have hfil : (f0 :: rest).filter (fun f => strTruthy f.fargs) =
        f0 :: rest.filter (fun f => strTruthy f.fargs) := by
      simp [List.filter_cons, hf]
    show ((f0 :: rest).filter (fun f => strTruthy f.fargs)).foldl _ "" = _
    rw [hfil, List.foldl_cons]
    have he : ("" : String) ++ orEmpty f0.fargs = orEmpty f0.fargs := rfl
    rw [he, argsFold_hoist]
    rfl
  · have hfil : (f0 :: rest).filter (fun f => strTruthy f.fargs) =
        rest.filter (fun f => strTruthy f.fargs) := by
      simp [List.filter_cons, hf]
    show ((f0 :: rest).filter (fun f => strTruthy f.fargs)).foldl _ "" = _
    rw [hfil, orEmpty_of_not_truthy (by simpa using hf)]
    have he : ("" : String) ++ specArgsConcat rest = specArgsConcat rest := rfl
    rw [he]
    rfl

theorem dedupById_singleton (c : ToolCall) : dedupById [c] = [c] := by
  simp [dedupById, dedupStep]

/-! ## Claim theorems -/

/-- C1: for every non-empty sequence of streamed tool-call fragments that
all carry the same index, the fragment loop of `_process_messages_stream`
produces exactly one intent, whose `arguments` is the concatenation, in
arrival order, of all non-empty partial-argument fragments, and whose `name`
is the last non-empty partial name seen (the empty string if there is none). -/
theorem c1_fragment_reassembly_same_index (tsOf : Nat → Nat) (i : Nat)
    (frags : List ToolFragment) (hne : frags ≠ [])
    (hall : ∀ f ∈ frags, f.index = some i) :
    ∃ idv : String,
      assembleCalls tsOf frags = [⟨idv, specLastName frags, specArgsConcat frags⟩] := by
  obtain ⟨f0, rest, rfl⟩ := List.exists_cons_of_ne_nil hne
  have hf0 : f0.index = some i := hall f0 (by simp)
  refine ⟨if strTruthy f0.fid then orEmpty f0.fid else synthId 0 (tsOf 0), ?_⟩
  unfold assembleCalls runFragments
  show dedupById (pushCurrent
    (runFragmentsFrom tsOf 1 (stepFragment (tsOf 0) AsmState.init f0) rest)) = _
  have hstep : stepFragment (tsOf 0) AsmState.init f0 =
      ⟨[], some ⟨if strTruthy f0.fid then orEmpty f0.fid else synthId 0 (tsOf 0),
        orEmpty f0.fname, orEmpty f0.fargs⟩, some i⟩ := by
    unfold stepFragment
    rw [if_pos (by simp [newCallCond, AsmState.init])]
    rw [hf0]
    rfl
  rw [hstep, run_same_index tsOf i rest 1 _ (fun g hg => hall g (by simp [hg]))]
  show dedupById ([] ++ [_]) = _
  rw [List.nil_append, dedupById_singleton, specLastName_cons, specArgsConcat_cons]

theorem c1_witness :
    ∃ idv : String,
      assembleCalls (fun _ => 7)
        [⟨some 0, none, some "lookup", some "ab"⟩, ⟨some 0, none, none, some "cd"⟩] =
        [⟨idv,
          specLastName
            [⟨some 0, none, some "lookup", some "ab"⟩, ⟨some 0, none, none, some "cd"⟩],
          specArgsConcat
            [⟨some 0, none, some "lookup", some "ab"⟩, ⟨some 0, none, none, some "cd"⟩]⟩] :=
  c1_fragment_reassembly_same_index (fun _ => 7) 0
    [⟨some 0, none, some "lookup", some "ab"⟩, ⟨some 0, none, none, some "cd"⟩]
    (by decide) (by decide)

/-- C3: the final deduplication pass merges finalized intents sharing an
id — their argument strings are concatenated in arrival order, the first
non-empty name wins, and the output stays in first-appearance order (the
source dedup equals the order/merge specification `dedupSpec`); in
particular, two fragments with the same explicit id `"c1"` but different
indices merge into one intent with concatenated arguments. -/
theorem c3_dedup_merges_shared_ids :
    (∀ tcs : List ToolCall, dedupById tcs = dedupSpec tcs) ∧
    (∀ tsOf : Nat → Nat,
      assembleCalls tsOf
        [⟨some 0, some "c1", some "lookup", some "A"⟩,
         ⟨some 1, some "c1", none, some "B"⟩] = [⟨"c1", "lookup", "AB"⟩]) := by
  refine ⟨dedupById_eq_dedupSpec, ?_⟩
  intro tsOf
  rfl

/-- The positional shape of synthesized ids: the `k`-th finalized call's id
was synthesized from count `k` and some timestamp. -/
def SynthIds (l : List ToolCall) : Prop :=
  ∀ k (h : k < l.length), ∃ u, (l[k]).id = synthId k u

theorem synthIds_push {l : List ToolCall} {c : ToolCall} (hl : SynthIds l)
    (hc : ∃ u, c.id = synthId l.length u) : SynthIds (l ++ [c]) := by
  intro k h
  rw [List.length_append, List.length_singleton] at h
  by_cases hk : k < l.length
  · obtain ⟨u, hu⟩ := hl k hk
    refine ⟨u, ?_⟩
    rw [List.getElem_append_left hk]
    exact hu
  · have hk' : k = l.length := by omega
    subst hk'
    obtain ⟨u, hu⟩ := hc
    refine ⟨u, ?_⟩
    rw [List.getElem_append_right (by omega)]
    simpa using hu

/-- Invariant of the fragment loop when no fragment supplies an id: every
finalized call's id is synthesized from its position, and the active call's
id is synthesized from the current finalized count. -/
def AsmInv (st : AsmState) : Prop :=
  SynthIds st.toolCalls ∧
    ∀ c, st.current = some c → ∃ u, c.id = synthId st.toolCalls.length u

theorem asmInv_push {st : AsmState} (h : AsmInv st) : SynthIds (pushCurrent st) := by
  unfold pushCurrent
  cases hcur : st.current with
  | none => exact h.1
  | some c => exact synthIds_push h.1 (h.2 c hcur)

theorem asmInv_step {st : AsmState} {f : ToolFragment} (ts : Nat)
    (hf : strTruthy f.fid = false) (h : AsmInv st) :
    AsmInv (stepFragment ts st f) := by
  unfold stepFragment
  by_cases hcond : newCallCond st f.index
  · rw [if_pos hcond]
    refine ⟨asmInv_push h, ?_⟩
    intro c hc
    simp only [Option.some.injEq] at hc
    refine ⟨ts, ?_⟩
    rw [← hc]
    simp [hf]
  · rw [if_neg hcond]
    refine ⟨h.1, ?_⟩
    intro c hc
    cases hcur : st.current with
    | none =>
      rw [hcur] at hc
      cases hc
    | some c0 =>
      rw [hcur] at hc
      simp only [Option.map_some', Option.some.injEq] at hc
      obtain ⟨u, hu⟩ := h.2 c0 hcur
      refine ⟨u, ?_⟩
      rw [← hc]
      exact hu

theorem asmInv_run (tsOf : Nat → Nat) :
    ∀ (frags : List ToolFragment) (k : Nat) (st : AsmState),
      (∀ f ∈ frags, strTruthy f.fid = false) → AsmInv st →
      AsmInv (runFragmentsFrom tsOf k st frags) := by
  intro frags
  induction frags with
  | nil =>
    intro k st _ h
    exact h
  | cons f fs ih =>
    intro k st hall h
    exact ih (k + 1) _ (fun g hg => hall g (by simp [hg]))
      (asmInv_step (tsOf k) (hall f (by simp)) h)

theorem synthIds_nodup {l : List ToolCall} (h : SynthIds l) : (idsOf l).Nodup := by
  rw [List.nodup_iff_injective_get]
  intro a b hab
  have ha : a.val < l.length := by
    have := a.isLt
    simpa [idsOf] using this
  have hb : b.val < l.length := by
    have := b.isLt
    simpa [idsOf] using this
  have hga : (idsOf l).get a = (l[a.val]).id := by
    rw [List.get_eq_getElem]
    simp [idsOf]
  have hgb : (idsOf l).get b = (l[b.val]).id := by
    rw [List.get_eq_getElem]
    simp [idsOf]
  obtain ⟨u, hu⟩ := h a.val ha
  obtain ⟨v, hv⟩ := h b.val hb
  have hs : synthId a.val u = synthId b.val v := by
    rw [← hu, ← hv, ← hga, ← hgb, hab]
  exact Fin.ext (synthId_inj_count hs)

/-- C4: when no input fragment carries an explicit (truthy) id, the
assembler's finalized intent list has pairwise-distinct ids, and each id is
synthesized from the count of already-finalized calls plus a timestamp. -/
theorem c4_synthesized_ids_unique (tsOf : Nat → Nat)
    (frags : List ToolFragment)
    (hnoid : ∀ f ∈ frags, strTruthy f.fid = false) :
    (idsOf (assembleCalls tsOf frags)).Nodup ∧
    ∀ k (h : k < (assembleCalls tsOf frags).length),
      ∃ u, ((assembleCalls tsOf frags)[k]).id = synthId k u := by
  have hinit : AsmInv AsmState.init := by
    constructor
    · intro k h
      exact absurd h (by simp [AsmState.init])
    · intro c hc
      cases hc
  have hinv : AsmInv (runFragments tsOf frags) :=
    asmInv_run tsOf frags 0 AsmState.init hnoid hinit
  have hfin : SynthIds (pushCurrent (runFragments tsOf frags)) := asmInv_push hinv
  have hnodup : (idsOf (pushCurrent (runFragments tsOf frags))).Nodup :=
    synthIds_nodup hfin
  have hasm : assembleCalls tsOf frags = pushCurrent (runFragments tsOf frags) := by
    unfold assembleCalls
    exact dedupById_of_nodup hnodup
  rw [hasm]
  exact ⟨hnodup, hfin⟩

theorem c4_witness :
    (idsOf (assembleCalls (fun k => 100 + k)
      [⟨some 0, none, some "a", some "x"⟩, ⟨some 1, none, some "b", some "y"⟩])).Nodup ∧
    ∀ k (h : k < (assembleCalls (fun k => 100 + k)
        [⟨some 0, none, some "a", some "x"⟩, ⟨some 1, none, some "b", some "y"⟩]).length),
      ∃ u, ((assembleCalls (fun k => 100 + k)
        [⟨some 0, none, some "a", some "x"⟩, ⟨some 1, none, some "b", some "y"⟩])[k]).id =
          synthId k u :=
  c4_synthesized_ids_unique (fun k => 100 + k)
    [⟨some 0, none, some "a", some "x"⟩, ⟨some 1, none, some "b", some "y"⟩]
    (by decide)

section DispatchProofs

variable {Payload : Type}

theorem dispatchOneHTTP_callId {parse : String → Except String Payload} {ep : Payload}
    {callTool : String → Payload → Except String String} {tc : ToolCall} {r : ToolResult}
    (h : (dispatchOneHTTP parse ep callTool tc).1 = some r) : r.callId = tc.id := by
  unfold dispatchOneHTTP at h
  by_cases hn : tc.name == ""
  · rw [if_pos hn] at h
    cases h
  · rw [if_neg hn] at h
    split at h
    · simp only [Option.some.injEq] at h
      rw [← h]
    · split at h <;> simp only [Option.some.injEq] at h <;> rw [← h]

theorem dispatchAllHTTP_callId {parse : String → Except String Payload} {ep : Payload}
    {callTool : String → Payload → Except String String} {tcs : List ToolCall}
    {r : ToolResult} (h : r ∈ (dispatchAllHTTP parse ep callTool tcs).1) :
    r.callId ∈ idsOf tcs := by
  unfold dispatchAllHTTP at h
  simp only [List.mem_filterMap, List.mem_map] at h
  obtain ⟨x, ⟨tc, htc, hx⟩, hr⟩ := h
  rw [← hx] at hr
  exact List.mem_map.mpr ⟨tc, htc, (dispatchOneHTTP_callId hr).symm ▸ rfl⟩

end DispatchProofs

/-- C2: in the streaming paths of both client variants, every tool turn
appended for the second completion call references an id present in the
immediately preceding assistant turn's `tool_calls` id set; in the
`mcp_client` variant a ToolResult whose id is not in that set is silently
dropped rather than emitted. -/
theorem c2_tool_turn_invariant (P Q : Type)
    (parse : String → Except String P) (ep : P)
    (callTool : String → P → Except String (List String))
    (parseH : String → Except String Q) (epH : Q)
    (callToolH : String → Q → Except String String)
    (tcs tcsH : List ToolCall) :
    ((buildFinalSuffix parse ep callTool tcs).head? =
      some (Turn.assistantCalls (some "") (formatToolCalls tcs))) ∧
    (∀ cid c, Turn.tool cid c ∈ (buildFinalSuffix parse ep callTool tcs).tail →
      cid ∈ idsOf (formatToolCalls tcs)) ∧
    (∀ r ∈ (dispatchAll parse ep callTool tcs).1,
      ¬ r.callId ∈ idsOf (formatToolCalls tcs) →
      ¬ Turn.tool r.callId r.content ∈ (buildFinalSuffix parse ep callTool tcs).tail) ∧
    ((buildFinalSuffixHTTP parseH epH callToolH tcsH).head? =
      some (Turn.assistantCalls (some "") tcsH)) ∧
    (∀ cid c, Turn.tool cid c ∈ (buildFinalSuffixHTTP parseH epH callToolH tcsH).tail →
      cid ∈ idsOf tcsH) := by
  refine ⟨rfl, ?_, ?_, rfl, ?_⟩
  · intro cid c hmem
    simp only [buildFinalSuffix, List.tail_cons, List.mem_map, List.mem_filter] at hmem
    obtain ⟨r, ⟨_, hvalid⟩, heq⟩ := hmem
    cases heq
    have : (idsOf (formatToolCalls tcs)).contains r.callId = true := hvalid
    simpa [idsOf, List.elem_iff] using this
  · intro r _ hnot hmem
    simp only [buildFinalSuffix, List.tail_cons, List.mem_map, List.mem_filter] at hmem
    obtain ⟨r', ⟨_, hvalid⟩, heq⟩ := hmem
    rw [Turn.tool.injEq] at heq
    have h1 : r'.callId = r.callId := heq.1
    apply hnot
    rw [← h1]
    simpa [idsOf, List.elem_iff] using hvalid
  · intro cid c hmem
    simp only [buildFinalSuffixHTTP, List.tail_cons, List.mem_map] at hmem
    obtain ⟨r, hr, heq⟩ := hmem
    cases heq
    exact dispatchAllHTTP_callId hr

theorem c2_witness :
    ("c1" : String) ∈ idsOf (formatToolCalls [⟨"c1", "t", "a"⟩]) :=
  (c2_tool_turn_invariant Unit Unit (fun _ => Except.ok ()) ()
      (fun _ _ => Except.ok []) (fun _ => Except.ok ()) ()
      (fun _ _ => Except.ok "") [⟨"c1", "t", "a"⟩] []).2.1
    "c1" "No content returned" (by decide)

/-- C7: if the first streamed completion yields zero finalized tool-call
intents, no second completion request is issued and the engine's output is
exactly the first phase's text chunks, in arrival order, with nothing added. -/
theorem c7_no_tool_short_circuit {P : Type} (tsOf : Nat → Nat)
    (parse : String → Except String P) (ep : P)
    (callTool : String → P → Except String (List String))
    (evs secondEvs : List StreamEvent)
    (h : assembleCalls tsOf (phaseFragments evs) = []) :
    processMessagesStream tsOf parse ep callTool evs secondEvs =
      (phaseTexts evs, false, []) := by
  simp [processMessagesStream, h]

theorem c7_witness :
    processMessagesStream (fun _ => 0) (fun _ => Except.ok ()) ()
      (fun _ _ => Except.ok []) [⟨some "hello", []⟩, ⟨some " world", []⟩] [] =
      (phaseTexts [⟨some "hello", []⟩, ⟨some " world", []⟩], false, []) :=
  c7_no_tool_short_circuit (fun _ => 0) (fun _ => Except.ok ()) ()
    (fun _ _ => Except.ok []) [⟨some "hello", []⟩, ⟨some " world", []⟩] []
    (by decide)

section EmptyName

variable {Payload : Type}

theorem dispatchOne_empty_name (parse : String → Except String Payload) (ep : Payload)
    (callTool : String → Payload → Except String (List String)) {tc : ToolCall}
    (h : tc.name = "") : dispatchOne parse ep callTool tc = (none, []) := by
  unfold dispatchOne
  rw [if_pos (by simp [h])]

theorem resultsOf_filter_names (parse : String → Except String Payload) (ep : Payload)
    (callTool : String → Payload → Except String (List String)) :
    ∀ tcs : List ToolCall,
      (tcs.map (dispatchOne parse ep callTool)).filterMap Prod.fst =
        ((tcs.filter (fun t => t.name != "")).map
          (dispatchOne parse ep callTool)).filterMap Prod.fst := by
  intro tcs
  induction tcs with
  | nil => rfl
  | cons t ts ih =>
    by_cases ht : t.name == ""
    · have hf : (t :: ts).filter (fun t => t.name != "") =
          ts.filter (fun t => t.name != "") := by
        simp [List.filter_cons, eq_of_beq ht]
      have hd : dispatchOne parse ep callTool t = (none, []) :=
        dispatchOne_empty_name parse ep callTool (eq_of_beq ht)
      rw [hf, List.map_cons, List.filterMap_cons, hd]
      exact ih
    · have ht' : ¬ t.name = "" := fun he => ht (by simp [he])
      have hf : (t :: ts).filter (fun t => t.name != "") =
          t :: ts.filter (fun t => t.name != "") := by
        simp [List.filter_cons, ht']
      rw [hf, List.map_cons, List.filterMap_cons, List.map_cons, List.filterMap_cons, ih]

theorem formatToolCalls_filter_names :
    ∀ tcs : List ToolCall,
      formatToolCalls tcs = formatToolCalls (tcs.filter (fun t => t.name != "")) := by
  intro tcs
  induction tcs with
  | nil => rfl
  | cons t ts ih =>
    by_cases ht : t.name == ""
    · have hf : (t :: ts).filter (fun t => t.name != "") =
          ts.filter (fun t => t.name != "") := by
        simp [List.filter_cons, eq_of_beq ht]
      rw [hf]
      show (t :: ts).filterMap _ = _
      rw [List.filterMap_cons, if_pos ht]
      exact ih
    · have ht' : ¬ t.name = "" := fun he => ht (by simp [he])
      have hf : (t :: ts).filter (fun t => t.name != "") =
          t :: ts.filter (fun t => t.name != "") := by
        simp [List.filter_cons, ht']
      rw [hf]
      show (t :: ts).filterMap _ = (t :: ts.filter _).filterMap _
      rw [List.filterMap_cons, List.filterMap_cons, if_neg ht]
      have : (ts.filterMap fun tc =>
          if tc.name == "" then none
          else some { tc with args := if tc.args == "" then "\x7b\x7d" else tc.args }) =
          ((ts.filter (fun t => t.name != "")).filterMap fun tc =>
            if tc.name == "" then none
            else some { tc with args := if tc.args == "" then "\x7b\x7d" else tc.args }) := ih
      rw [this]

/-- C8: a finalized intent whose name is empty after all merging is
skipped by the dispatcher — no tool invocation, no ToolResult, no error — and
the assistant turn built for the second completion excludes it from its
`tool_calls` list (dispatch results and the formatted call list both equal
those of the list with empty-name intents removed). -/
theorem c8_empty_name_skipped (parse : String → Except String Payload) (ep : Payload)
    (callTool : String → Payload → Except String (List String))
    (tc : ToolCall) (tcs : List ToolCall) (h : tc.name = "") :
    dispatchOne parse ep callTool tc = (none, []) ∧
    (dispatchAll parse ep callTool tcs).1 =
      (dispatchAll parse ep callTool (tcs.filter (fun t => t.name != ""))).1 ∧
    formatToolCalls tcs = formatToolCalls (tcs.filter (fun t => t.name != "")) :=
  ⟨dispatchOne_empty_name parse ep callTool h,
   resultsOf_filter_names parse ep callTool tcs,
   formatToolCalls_filter_names tcs⟩

end EmptyName

theorem c8_witness :
    dispatchOne (fun _ => Except.ok ()) () (fun _ _ => Except.ok [])
      (⟨"c0", "", "x"⟩ : ToolCall) = (none, []) ∧
    (dispatchAll (fun _ => Except.ok ()) () (fun _ _ => Except.ok [])
      [(⟨"c0", "", "x"⟩ : ToolCall), ⟨"c1", "t", ""⟩]).1 =
      (dispatchAll (fun _ => Except.ok ()) () (fun _ _ => Except.ok [])
        ([(⟨"c0", "", "x"⟩ : ToolCall), ⟨"c1", "t", ""⟩].filter
          (fun t => t.name != ""))).1 ∧
    formatToolCalls [(⟨"c0", "", "x"⟩ : ToolCall), ⟨"c1", "t", ""⟩] =
      formatToolCalls ([(⟨"c0", "", "x"⟩ : ToolCall), ⟨"c1", "t", ""⟩].filter
        (fun t => t.name != "")) :=
  c8_empty_name_skipped (fun _ => Except.ok ()) () (fun _ _ => Except.ok [])
    ⟨"c0", "", "x"⟩ [⟨"c0", "", "x"⟩, ⟨"c1", "t", ""⟩] rfl

section Containment

variable {Payload : Type}

theorem dispatchOne_some (parse : String → Except String Payload) (ep : Payload)
    (callTool : String → Payload → Except String (List String)) {tc : ToolCall}
    (h : ¬ tc.name = "") :
    ∃ r, (dispatchOne parse ep callTool tc).1 = some r := by
  unfold dispatchOne
  rw [if_neg (by simp [h])]
  split
  · exact ⟨_, rfl⟩
  · split <;> exact ⟨_, rfl⟩

theorem resultsOf_length (parse : String → Except String Payload) (ep : Payload)
    (callTool : String → Payload → Except String (List String)) :
    ∀ tcs : List ToolCall,
      ((tcs.map (dispatchOne parse ep callTool)).filterMap Prod.fst).length =
        (tcs.filter (fun t => t.name != "")).length := by
  intro tcs
  induction tcs with
  | nil => rfl
  | cons t ts ih =>
    by_cases ht : t.name == ""
    · have hfil : (t :: ts).filter (fun t => t.name != "") =
          ts.filter (fun t => t.name != "") := by
        simp [List.filter_cons, eq_of_beq ht]
      rw [List.map_cons, List.filterMap_cons,
        dispatchOne_empty_name parse ep callTool (eq_of_beq ht), hfil]
      exact ih
    · have ht' : ¬ t.name = "" := fun he => ht (by simp [he])
      have hfil : (t :: ts).filter (fun t => t.name != "") =
          t :: ts.filter (fun t => t.name != "") := by
        simp [List.filter_cons, ht']
      obtain ⟨r, hr⟩ := dispatchOne_some parse ep callTool ht'
      rw [List.map_cons, List.filterMap_cons, hr, hfil]
      rw [List.filterMap_map] at ih
      simp [ih]

theorem streamCycle_completes (tsOf : Nat → Nat)
    (parse : String → Except String Payload) (ep : Payload)
    (callTool : String → Payload → Except String (List String))
    (evs secondEvs : List StreamEvent)
    (h : assembleCalls tsOf (phaseFragments evs) ≠ []) :
    (processMessagesStream tsOf parse ep callTool evs secondEvs).2.1 = true := by
  have hne : (assembleCalls tsOf (phaseFragments evs)).isEmpty = false := by
    cases hl : assembleCalls tsOf (phaseFragments evs) with
    | nil => exact absurd hl h
    | cons a l => rfl
  simp [processMessagesStream, hne]

end Containment

/-- C5 counterexample: in the non-streaming `_process_messages` path a
single failing tool invocation (`call_tool` raises `"boom"`) is NOT converted
into a ToolResult: the whole cycle aborts with the outer handler's error
string, and the second completion is never issued (third component `false`) —
contradicting "converts the error into a ToolResult ... and still completes
the cycle with a follow-up answer ... in the non-streaming path". -/
theorem c5_counterexample :
    processMessagesNS (fun _ => Except.ok ()) (fun _ _ => Except.error "boom") 0
      (Except.ok ⟨some "", [⟨"c1", "t", "x"⟩]⟩) (Except.ok (some "final")) [] false =
      (some "Error processing query: boom", [], false) := rfl

/-- C5 (amended): per-call error containment holds in the streaming path
only. There, a tool invocation that raises is converted into a ToolResult
whose content is the `"Error executing tool ..."` string, every intent with a
non-empty name still yields exactly one ToolResult (so dispatch continues
past failures), and the cycle still issues the follow-up completion whenever
any intents were assembled. In the non-streaming `_process_messages` path a
raised tool error aborts the cycle (see the counterexample). -/
theorem c5_amended_streaming_containment :
    (∀ (P : Type) (parse : String → Except String P) (ep : P)
      (callTool : String → P → Except String (List String)) (tc : ToolCall)
      (p : P) (e : String), ¬ tc.name = "" →
      parsedArgs parse ep tc.args = Except.ok p →
      callTool tc.name p = Except.error e →
      dispatchOne parse ep callTool tc =
        (some ⟨tc.id, "Error executing tool " ++ tc.name ++ ": " ++ e⟩, [(tc.name, p)])) ∧
    (∀ (P : Type) (parse : String → Except String P) (ep : P)
      (callTool : String → P → Except String (List String)) (tcs : List ToolCall),
      ((tcs.map (dispatchOne parse ep callTool)).filterMap Prod.fst).length =
        (tcs.filter (fun t => t.name != "")).length) ∧
    (∀ (P : Type) (tsOf : Nat → Nat) (parse : String → Except String P) (ep : P)
      (callTool : String → P → Except String (List String))
      (evs secondEvs : List StreamEvent),
      assembleCalls tsOf (phaseFragments evs) ≠ [] →
      (processMessagesStream tsOf parse ep callTool evs secondEvs).2.1 = true) := by
  refine ⟨?_, ?_, ?_⟩
  · intro P parse ep callTool tc p e hn hp hc
    have hn' : (tc.name == "") = false := by simp [hn]
    simp [dispatchOne, hn', hp, hc]
  · intro P parse ep callTool tcs
    exact resultsOf_length parse ep callTool tcs
  · intro P tsOf parse ep callTool evs secondEvs h
    exact streamCycle_completes tsOf parse ep callTool evs secondEvs h

theorem c5_witness :
    dispatchOne (fun _ => Except.ok ()) () (fun _ _ => Except.error "boom")
      (⟨"c1", "t", ""⟩ : ToolCall) =
      (some ⟨"c1", "Error executing tool t: boom"⟩, [("t", ())]) :=
  (c5_amended_streaming_containment).1 Unit (fun _ => Except.ok ()) ()
    (fun _ _ => Except.error "boom") ⟨"c1", "t", ""⟩ () "boom"
    (by decide) rfl rfl

/-- C6 counterexample: an intent with non-empty name `"t"` and arguments
`"notjson"` that fail to parse: the streaming dispatcher produces a
parse-error ToolResult and does NOT invoke the tool (its invocation list is
empty), contradicting "substitutes an empty payload and still invokes the
tool" for the parse-failure case. -/
theorem c6_counterexample :
    dispatchOne (fun _ => Except.error "bad") () (fun _ _ => Except.ok [])
      (⟨"c1", "t", "notjson"⟩ : ToolCall) =
      (some ⟨"c1", "Error parsing tool arguments for t: bad"⟩, []) := rfl

/-- C6 (amended): in the streaming dispatcher, an intent with a
non-empty name whose arguments are empty or whitespace is invoked with the
empty payload substituted; an intent whose arguments fail to parse produces
a parse-error ToolResult and the tool is not invoked; neither case fails the
cycle (a result option is produced, nothing propagates). In the
non-streaming path arguments are parsed with no such guards. -/
theorem c6_amended_empty_args_substituted {P : Type}
    (parse : String → Except String P) (ep : P)
    (callTool : String → P → Except String (List String)) (tc : ToolCall)
    (hname : ¬ tc.name = "") :
    ((tc.args = "" ∨ stripWS tc.args = "") →
      (dispatchOne parse ep callTool tc).2 = [(tc.name, ep)] ∧
      ∃ r, (dispatchOne parse ep callTool tc).1 = some r) ∧
    (∀ e, parse tc.args = Except.error e → ¬ (tc.args = "" ∨ stripWS tc.args = "") →
      dispatchOne parse ep callTool tc =
        (some ⟨tc.id, "Error parsing tool arguments for " ++ tc.name ++ ": " ++ e⟩, [])) := by
  have hn' : (tc.name == "") = false := by simp [hname]
  constructor
  · intro hws
    have hcond : (tc.args == "" || stripWS tc.args == "") = true := by
      rcases hws with h | h <;> simp [h]
    have hpa : parsedArgs parse ep tc.args = Except.ok ep := by
      unfold parsedArgs
      rw [if_pos hcond]
    rcases hc : callTool tc.name ep with e | contents <;>
      simp [dispatchOne, hn', hpa, hc]
  · intro e hpe hws
    have hcond : (tc.args == "" || stripWS tc.args == "") = false := by
      simp only [Bool.or_eq_false_iff, beq_eq_false_iff_ne]
      exact ⟨fun h => hws (Or.inl h), fun h => hws (Or.inr h)⟩
    have hpa : parsedArgs parse ep tc.args = Except.error e := by
      unfold parsedArgs
      rw [if_neg (by simp [hcond]), hpe]
    simp [dispatchOne, hn', hpa]

theorem c6_witness :
    (dispatchOne (fun _ => Except.error "bad") () (fun _ _ => Except.ok [])
      (⟨"c1", "t", " \u00A0"⟩ : ToolCall)).2 = [("t", ())] ∧
    ∃ r, (dispatchOne (fun _ => Except.error "bad") () (fun _ _ => Except.ok [])
      (⟨"c1", "t", " \u00A0"⟩ : ToolCall)).1 = some r :=
  (c6_amended_empty_args_substituted (fun _ => Except.error "bad") ()
      (fun _ _ => Except.ok []) ⟨"c1", "t", " \u00A0"⟩ (by decide)).1
    (Or.inr rfl)

section History

variable {Payload : Type}

theorem toolLoopNS_keeps_hist (parse : String → Except String Payload)
    (callTool : String → Payload → Except String (List String)) (ts : Nat) :
    ∀ (tcs : List ToolCall) (hist acc : List Turn) (r : List Turn × List Turn),
      toolLoopNS parse callTool ts false hist acc tcs = Except.ok r → r.1 = hist := by
  intro tcs
  induction tcs with
  | nil =>
    intro hist acc r h
    unfold toolLoopNS at h
    simp only [Except.ok.injEq] at h
    rw [← h]
  | cons tc rest ih =>
    intro hist acc r h
    unfold toolLoopNS at h
    by_cases hn : tc.name == ""
    · rw [if_pos hn] at h
      exact ih hist acc r h
    · rw [if_neg hn] at h
      split at h
      · cases h
      · split at h
        · cases h
        · exact ih _ _ r h

theorem coreNS_keeps_hist (parse : String → Except String Payload)
    (callTool : String → Payload → Except String (List String)) (ts : Nat)
    (firstResp : Except String ChatMessage)
    (secondResp : Except String (Option String)) (hist : List Turn)
    (r : Option String × List Turn × Bool)
    (h : processMessagesCore parse callTool ts firstResp secondResp hist false =
      Except.ok r) : r.2.1 = hist := by
  unfold processMessagesCore at h
  cases firstResp with
  | error e => simp at h
  | ok rm =>
    simp only [Bool.false_eq_true, if_false] at h
    by_cases he : rm.toolCalls.isEmpty
    · rw [if_pos he] at h
      simp only [Except.ok.injEq] at h
      rw [← h]
    · rw [if_neg he] at h
      cases hloop : toolLoopNS parse callTool ts false hist [] rm.toolCalls with
      | error e2 =>
        rw [hloop] at h
        simp at h
      | ok pr =>
        obtain ⟨hist2, toolTurns⟩ := pr
        rw [hloop] at h
        cases secondResp with
        | error e2 => simp at h
        | ok content =>
          simp only [Bool.false_eq_true, if_false, Except.ok.injEq] at h
          rw [← h]
          exact toolLoopNS_keeps_hist parse callTool ts rm.toolCalls hist []
            (hist2, toolTurns) hloop

theorem processMessagesNS_keeps_hist (parse : String → Except String Payload)
    (callTool : String → Payload → Except String (List String)) (ts : Nat)
    (firstResp : Except String ChatMessage)
    (secondResp : Except String (Option String)) (hist : List Turn) :
    (processMessagesNS parse callTool ts firstResp secondResp hist false).2.1 = hist := by
  unfold processMessagesNS
  cases hcore : processMessagesCore parse callTool ts firstResp secondResp hist false with
  | error eb => rfl
  | ok r =>
    exact coreNS_keeps_hist parse callTool ts firstResp secondResp hist r hcore

end History

/-- C9: if any modelled exception (a completion-call failure, a
`json.loads` failure or a tool-call failure) is raised during a
`process_query` cycle, the entire conversation history — including turns
appended by earlier successful cycles and the user turn appended by this
call — is reset to the empty list, and the method returns an error string
instead of raising. -/
theorem c9_history_reset_on_error {P : Type} (parse : String → Except String P)
    (callTool : String → P → Except String (List String)) (ts : Nat)
    (firstResp : Except String ChatMessage)
    (secondResp : Except String (Option String))
    (hist : List Turn) (query : String) (e : String) (b : Bool)
    (h : processMessagesCore parse callTool ts firstResp secondResp
      (hist ++ [Turn.user query]) true = Except.error (e, b)) :
    processQuery parse callTool ts firstResp secondResp hist query =
      (some ("Error processing query: " ++ e), [], b) := by
  unfold processQuery processMessagesNS
  rw [h]
  rfl

theorem c9_witness :
    processQuery (fun _ => Except.ok ()) (fun _ _ => Except.ok []) 0
      (Except.error "net down") (Except.ok (some "x"))
      [Turn.user "earlier", Turn.assistant (some "prev")] "hi" =
      (some ("Error processing query: " ++ "net down"), [], false) :=
  c9_history_reset_on_error (fun _ => Except.ok ()) (fun _ _ => Except.ok []) 0
    (Except.error "net down") (Except.ok (some "x"))
    [Turn.user "earlier", Turn.assistant (some "prev")] "hi" "net down" false rfl

/-- C10: `process_query_with_context` and
`process_query_with_context_stream` leave the client's
`conversation_history` unchanged, whatever the completion, parse and tool
oracles do (only `process_query` appends to it). -/
theorem c10_context_paths_preserve_history {P Q : Type}
    (parse : String → Except String P)
    (callTool : String → P → Except String (List String)) (ts : Nat)
    (firstResp : Except String ChatMessage)
    (secondResp : Except String (Option String))
    (tsOf : Nat → Nat) (parseS : String → Except String Q) (epS : Q)
    (callToolS : String → Q → Except String (List String))
    (evs secondEvs : List StreamEvent) (hist : List Turn) :
    (processQueryWithContext parse callTool ts firstResp secondResp hist).2.1 = hist ∧
    (processQueryWithContextStream tsOf parseS epS callToolS evs secondEvs hist).2 =
      hist := by
  refine ⟨?_, rfl⟩
  unfold processQueryWithContext
  exact processMessagesNS_keeps_hist parse callTool ts firstResp secondResp hist

end MCP
